import Mathlib

/-!
Verification of the storage abstraction of the LSHash repository
(`pyLSHash/storage.py`): the backend factory `storage`, the in-memory
backend `InMemoryStorage` and the networked backend `RedisStorage`.

Python dictionaries are embedded as insertion-ordered association lists
(`alookup` / `aset` / `adel` below mirror `d[k]`, `d[k] = v` /
`d.setdefault`, and `del d[k]`); exceptions are embedded as the `.error`
branch of `Except String`.
-/

namespace LSHash

/-- Lookup in an insertion-ordered association list: the model of `d[k]`
(read) and `d.get(k)` on a Python dict whose pairs are kept in insertion
order. -/
def alookup {β : Type} (k : String) : List (String × β) → Option β
  | [] => none
  | (k', v) :: rest => if k' = k then some v else alookup k rest

/-- Update in an insertion-ordered association list: the model of
`d[k] = v` on a Python dict — an existing key keeps its position, a new
key goes to the end. -/
def aset {β : Type} (k : String) (v : β) : List (String × β) → List (String × β)
  | [] => [(k, v)]
  | (k', v') :: rest => if k' = k then (k, v) :: rest else (k', v') :: aset k v rest

/-- Deletion from an association list: the model of `del d[k]` /
`redis DEL key` (removes every pair carrying the key). -/
def adel {β : Type} (k : String) : List (String × β) → List (String × β)
  | [] => []
  | (k', v') :: rest => if k' = k then adel k rest else (k', v') :: adel k rest

@[simp] theorem alookup_nil {β : Type} (k : String) : alookup (β := β) k [] = none := rfl

@[simp] theorem alookup_aset_self {β : Type} (k : String) (v : β) (s : List (String × β)) :
    alookup k (aset k v s) = some v := by
  induction s with
  | nil => simp [aset, alookup]
  | cons p rest ih =>
    obtain ⟨k', v'⟩ := p
    by_cases h : k' = k
    · simp [aset, h, alookup]
    · simp [aset, h, alookup, ih]

theorem alookup_aset_ne {β : Type} {k k' : String} (hne : k' ≠ k) (v : β)
    (s : List (String × β)) : alookup k (aset k' v s) = alookup k s := by
  induction s with
  | nil => simp [aset, alookup, hne]
  | cons p rest ih =>
    obtain ⟨k₀, v₀⟩ := p
    by_cases h : k₀ = k'
    · subst h
      simp [aset, alookup, hne]
    · simp only [aset, if_neg h, alookup, ih]

theorem mem_keys_aset_self {β : Type} (k : String) (v : β) (s : List (String × β)) :
    k ∈ (aset k v s).map Prod.fst := by
  induction s with
  | nil => simp [aset]
  | cons p rest ih =>
    obtain ⟨k', v'⟩ := p
    by_cases h : k' = k
    · simp [aset, h]
    · simp [aset, h]
      right
      simpa using ih

theorem adel_eq_filter {β : Type} (k : String) (s : List (String × β)) :
    adel k s = s.filter (fun p => p.1 ≠ k) := by
  induction s with
  | nil => simp [adel]
  | cons q rest ih =>
    obtain ⟨k', v'⟩ := q
    by_cases h : k' = k
    · simp [adel, h, List.filter, ih]
    · simp [adel, h, List.filter, ih]

theorem mem_adel {β : Type} {p : String × β} {k : String} {s : List (String × β)} :
    p ∈ adel k s ↔ p ∈ s ∧ p.1 ≠ k := by
  rw [adel_eq_filter]
  simp [List.mem_filter]

/-! ## In-memory backend

`InMemoryStorage` (storage.py lines 67–88) keeps one Python dict
`self.storage` holding both scalar values (written by `set_val`) and
lists (grown by `append_val`).  `MemVal` is the tagged union of the two
shapes of stored Python objects. -/

/-- A value stored in the single `self.storage` dict of `InMemoryStorage`:
either a scalar put there by `set_val`, or a list grown by `append_val`. -/
inductive MemVal (α : Type) where
  | scalar (v : α)
  | vlist (l : List α)
  deriving DecidableEq

/-- The state of `InMemoryStorage`: its `self.storage` dict. -/
abbrev InMemState (α : Type) := List (String × MemVal α)

namespace InMemoryStorage

/-- `InMemoryStorage.__init__`: `self.storage = dict()`. -/
def init (α : Type) : InMemState α := []

/-- `InMemoryStorage.keys`: `return self.storage.keys()`. -/
def keys {α : Type} (s : InMemState α) : List String := s.map Prod.fst

/-- `InMemoryStorage.set_val`: `self.storage[key] = val`. -/
def set_val {α : Type} (s : InMemState α) (key : String) (val : α) : InMemState α :=
  aset key (.scalar val) s

/-- `InMemoryStorage.get_val`: `return self.storage[key]` — raises a
`KeyError` (the `KeyNotFound` condition) when the key is absent. -/
def get_val {α : Type} (s : InMemState α) (key : String) : Except String (MemVal α) :=
  match alookup key s with
  | some v => .ok v
  | none => .error "KeyError"

/-- `InMemoryStorage.append_val`:
`self.storage.setdefault(key, []).append(val)` — creates `[val]` when the
key is absent, extends the list in place when the key holds a list, and
raises an `AttributeError` (state unchanged) when the key holds a scalar
that has no `append` method. -/
def append_val {α : Type} (s : InMemState α) (key : String) (val : α) :
    Except String (InMemState α) :=
  match alookup key s with
  | none => .ok (aset key (.vlist [val]) s)
  | some (.vlist l) => .ok (aset key (.vlist (l ++ [val])) s)
  | some (.scalar _) => .error "AttributeError"

/-- `InMemoryStorage.get_list`: `return self.storage.get(key, [])` —
returns whatever object sits at `key` (a list, or a scalar previously
stored by `set_val`), defaulting to the empty list. -/
def get_list {α : Type} (s : InMemState α) (key : String) : MemVal α :=
  (alookup key s).getD (.vlist [])

/-- `InMemoryStorage.clear`: `self.storage = dict()`. -/
def clear {α : Type} (_s : InMemState α) : InMemState α := []

end InMemoryStorage

/-! ## Value Codec

Modelled from the spec: the Value Codec (`json.dumps` / `json.loads` in
`RedisStorage.append_val` / `get_list`) is not part of this repository,
so it is embedded from §4.3 of the spec — structured values (numbers,
strings, booleans, null, nested sequences and string-keyed mappings) are
serialized to a flat, self-describing token stream, and deserialization
parses that stream back. -/

/-- One token of the serialized wire form produced by the codec. -/
inductive Codon where
  | tNull
  | tBool (b : Bool)
  | tInt (n : Int)
  | tStr (s : String)
  | tArr (n : Nat)
  | tObj (n : Nat)
  deriving DecidableEq

/-- A structured application-level value handled by the Value Codec:
null, booleans, numbers, strings, sequences, string-keyed mappings. -/
inductive JsonVal where
  | jnull
  | jbool (b : Bool)
  | jint (n : Int)
  | jstr (s : String)
  | jarr (items : List JsonVal)
  | jobj (fields : List (String × JsonVal))

mutual

/-- Modelled from the spec: serialization (`json.dumps`) to the flat
self-describing token stream; containers emit a header token carrying
their length followed by their serialized members. -/
def dumps : JsonVal → List Codon
  | .jnull => [.tNull]
  | .jbool b => [.tBool b]
  | .jint n => [.tInt n]
  | .jstr s => [.tStr s]
  | .jarr items => .tArr items.length :: dumpsList items
  | .jobj fields => .tObj fields.length :: dumpsFields fields

/-- Serialization of the members of a sequence, in order. -/
def dumpsList : List JsonVal → List Codon
  | [] => []
  | v :: vs => dumps v ++ dumpsList vs

/-- Serialization of the fields of a mapping: each key token followed by
the serialized value. -/
def dumpsFields : List (String × JsonVal) → List Codon
  | [] => []
  | (k, v) :: fs => .tStr k :: (dumps v ++ dumpsFields fs)

end

mutual

/-- Number of nodes of a structured value (used to bound the parser
fuel). -/
def jsize : JsonVal → Nat
  | .jnull => 1
  | .jbool _ => 1
  | .jint _ => 1
  | .jstr _ => 1
  | .jarr items => jsizeList items + 1
  | .jobj fields => jsizeFields fields + 1

/-- Total node count of a list of structured values. -/
def jsizeList : List JsonVal → Nat
  | [] => 0
  | v :: vs => jsize v + jsizeList vs

/-- Total node count of the values of a field list. -/
def jsizeFields : List (String × JsonVal) → Nat
  | [] => 0
  | (_, v) :: fs => jsize v + jsizeFields fs

end

mutual

/-- Modelled from the spec: deserialization (`json.loads`), one value.
Returns the parsed value and the unconsumed suffix; `none` models a
`CodecError` (malformed stream).  `fuel` bounds the nesting depth. -/
def parseVal : Nat → List Codon → Option (JsonVal × List Codon)
  | 0, _ => none
  | _ + 1, [] => none
  | fuel + 1, c :: ts =>
    match c with
    | .tNull => some (.jnull, ts)
    | .tBool b => some (.jbool b, ts)
    | .tInt n => some (.jint n, ts)
    | .tStr s => some (.jstr s, ts)
    | .tArr n => Option.map (fun r => (JsonVal.jarr r.1, r.2)) (parseItems fuel n ts)
    | .tObj n => Option.map (fun r => (JsonVal.jobj r.1, r.2)) (parseFields fuel n ts)
termination_by fuel _ => (fuel, 0)

/-- Deserialization of `n` consecutive sequence members. -/
def parseItems : Nat → Nat → List Codon → Option (List JsonVal × List Codon)
  | _, 0, ts => some ([], ts)
  | fuel, n + 1, ts =>
    match parseVal fuel ts with
    | none => none
    | some (v, ts₁) =>
      match parseItems fuel n ts₁ with
      | none => none
      | some (vs, ts₂) => some (v :: vs, ts₂)
termination_by fuel n _ => (fuel, n + 1)

/-- Deserialization of `n` consecutive mapping fields (key token, then
value). -/
def parseFields : Nat → Nat → List Codon → Option (List (String × JsonVal) × List Codon)
  | _, 0, ts => some ([], ts)
  | fuel, n + 1, ts =>
    match ts with
    | .tStr k :: ts₀ =>
      match parseVal fuel ts₀ with
      | none => none
      | some (v, ts₁) =>
        match parseFields fuel n ts₁ with
        | none => none
        | some (fs, ts₂) => some ((k, v) :: fs, ts₂)
    | _ => none
termination_by fuel n _ => (fuel, n + 1)

end

/-- Modelled from the spec: `json.loads` of a whole serialized form —
parse one value and require the stream to be fully consumed. -/
def loads (ts : List Codon) : Option JsonVal :=
  match parseVal (ts.length + 1) ts with
  | some (v, []) => some v
  | _ => none

/-- Element-wise deserialization, as in the list comprehension
`[json.loads(val) for val in ...]`: the first failure aborts the whole
read. -/
def loadsAll : List (List Codon) → Option (List JsonVal)
  | [] => some []
  | x :: xs =>
    match loads x, loadsAll xs with
    | some e, some es => some (e :: es)
    | _, _ => none

mutual

theorem jsize_le_dumps_length : ∀ v : JsonVal, jsize v ≤ (dumps v).length
  | .jnull => by simp [dumps, jsize]
  | .jbool b => by simp [dumps, jsize]
  | .jint n => by simp [dumps, jsize]
  | .jstr s => by simp [dumps, jsize]
  | .jarr items => by
      have h := jsizeList_le_dumpsList_length items
      simp only [dumps, jsize, List.length_cons]
      omega
  | .jobj fields => by
      have h := jsizeFields_le_dumpsFields_length fields
      simp only [dumps, jsize, List.length_cons]
      omega

theorem jsizeList_le_dumpsList_length : ∀ l : List JsonVal, jsizeList l ≤ (dumpsList l).length
  | [] => by simp [dumpsList, jsizeList]
  | v :: vs => by
      have h₁ := jsize_le_dumps_length v
      have h₂ := jsizeList_le_dumpsList_length vs
      simp only [dumpsList, jsizeList, List.length_append]
      omega

theorem jsizeFields_le_dumpsFields_length :
    ∀ fs : List (String × JsonVal), jsizeFields fs ≤ (dumpsFields fs).length
  | [] => by simp [dumpsFields, jsizeFields]
  | (k, v) :: fs => by
      have h₁ := jsize_le_dumps_length v
      have h₂ := jsizeFields_le_dumpsFields_length fs
      simp only [dumpsFields, jsizeFields, List.length_cons, List.length_append]
      omega

end

mutual

theorem parseVal_dumps : ∀ (v : JsonVal) (fuel : Nat) (rest : List Codon),
    jsize v ≤ fuel → parseVal fuel (dumps v ++ rest) = some (v, rest)
  | .jnull, fuel, rest, h => by
      obtain ⟨f, rfl⟩ : ∃ f, fuel = f + 1 := ⟨fuel - 1, by simp [jsize] at h; omega⟩
      simp [dumps, parseVal]
  | .jbool b, fuel, rest, h => by
      obtain ⟨f, rfl⟩ : ∃ f, fuel = f + 1 := ⟨fuel - 1, by simp [jsize] at h; omega⟩
      simp [dumps, parseVal]
  | .jint n, fuel, rest, h => by
      obtain ⟨f, rfl⟩ : ∃ f, fuel = f + 1 := ⟨fuel - 1, by simp [jsize] at h; omega⟩
      simp [dumps, parseVal]
  | .jstr s, fuel, rest, h => by
      obtain ⟨f, rfl⟩ : ∃ f, fuel = f + 1 := ⟨fuel - 1, by simp [jsize] at h; omega⟩
      simp [dumps, parseVal]
  | .jarr items, fuel, rest, h => by
      obtain ⟨f, rfl⟩ : ∃ f, fuel = f + 1 := ⟨fuel - 1, by simp [jsize] at h; omega⟩
      have hf : jsizeList items ≤ f := by simp [jsize] at h; omega
      have e := parseItems_dumpsList items f rest hf
      simp [dumps, parseVal, e]
  | .jobj fields, fuel, rest, h => by
      obtain ⟨f, rfl⟩ : ∃ f, fuel = f + 1 := ⟨fuel - 1, by simp [jsize] at h; omega⟩
      have hf : jsizeFields fields ≤ f := by simp [jsize] at h; omega
      have e := parseFields_dumpsFields fields f rest hf
      simp [dumps, parseVal, e]

theorem parseItems_dumpsList : ∀ (l : List JsonVal) (fuel : Nat) (rest : List Codon),
    jsizeList l ≤ fuel → parseItems fuel l.length (dumpsList l ++ rest) = some (l, rest)
  | [], fuel, rest, _ => by simp [dumpsList, parseItems]
  | v :: vs, fuel, rest, h => by
      have h₁ : jsize v ≤ fuel := by simp [jsizeList] at h; omega
      have h₂ : jsizeList vs ≤ fuel := by simp [jsizeList] at h; omega
      have e₁ := parseVal_dumps v fuel (dumpsList vs ++ rest) h₁
      have e₂ := parseItems_dumpsList vs fuel rest h₂
      simp [dumpsList, parseItems, List.append_assoc, e₁, e₂]

theorem parseFields_dumpsFields : ∀ (fs : List (String × JsonVal)) (fuel : Nat)
    (rest : List Codon), jsizeFields fs ≤ fuel →
    parseFields fuel fs.length (dumpsFields fs ++ rest) = some (fs, rest)
  | [], fuel, rest, _ => by simp [dumpsFields, parseFields]
  | (k, v) :: fs, fuel, rest, h => by
      have h₁ : jsize v ≤ fuel := by simp [jsizeFields] at h; omega
      have h₂ : jsizeFields fs ≤ fuel := by simp [jsizeFields] at h; omega
      have e₁ := parseVal_dumps v fuel (dumpsFields fs ++ rest) h₁
      have e₂ := parseFields_dumpsFields fs fuel rest h₂
      simp [dumpsFields, parseFields, List.append_assoc, e₁, e₂]

end

/-- Round-trip law of the Value Codec: deserializing the serialized form
of any representable value yields the value back. -/
theorem loads_dumps (v : JsonVal) : loads (dumps v) = some v := by
  have h := parseVal_dumps v ((dumps v).length + 1) []
    (le_trans (jsize_le_dumps_length v) (Nat.le_succ _))
  simp only [List.append_nil] at h
  simp [loads, h]

/-! ## Networked backend

`RedisStorage` (storage.py lines 91–115) holds a `redis.StrictRedis`
client.  The external service's keyspace is embedded as an association
list from key to `RedisVal`; the native command semantics (`SET`, `GET`,
`RPUSH`, `LRANGE`, `KEYS`, `DEL`) follow §4.4 of the spec: `GET` returns
nil (not an error) for an absent key, per-key list push is
create-or-append, and type-mismatched commands fail with a `WRONGTYPE`
error. -/

/-- A value held by the external key-value service at one key: a native
string (written by `SET`) or a native list of serialized entries (grown
by `RPUSH`). -/
inductive RedisVal where
  | rstr (s : String)
  | rlist (l : List (List Codon))
  deriving DecidableEq

/-- The keyspace of the service partition a `RedisStorage` instance is
connected to. -/
abbrev RedisState := List (String × RedisVal)

namespace RedisClient

/-- `SET key val`: stores a native string, overwriting any prior value. -/
def rset (s : RedisState) (k : String) (v : String) : RedisState :=
  aset k (.rstr v) s

/-- `GET key`: the stored string, or nil (`none`) when the key is absent;
`WRONGTYPE` error on a list-typed key. -/
def rget (s : RedisState) (k : String) : Except String (Option String) :=
  match alookup k s with
  | none => .ok none
  | some (.rstr v) => .ok (some v)
  | some (.rlist _) => .error "WRONGTYPE"

/-- `RPUSH key val`: appends to the native list at `key`, creating it
when absent; `WRONGTYPE` error on a string-typed key. -/
def rpush (s : RedisState) (k : String) (v : List Codon) : Except String RedisState :=
  match alookup k s with
  | none => .ok (aset k (.rlist [v]) s)
  | some (.rlist l) => .ok (aset k (.rlist (l ++ [v])) s)
  | some (.rstr _) => .error "WRONGTYPE"

/-- `LRANGE key 0 -1`: the whole native list at `key`, `[]` when the key
is absent; `WRONGTYPE` error on a string-typed key. -/
def lrangeAll (s : RedisState) (k : String) : Except String (List (List Codon)) :=
  match alookup k s with
  | none => .ok []
  | some (.rlist l) => .ok l
  | some (.rstr _) => .error "WRONGTYPE"

/-- `KEYS *`: every key of the partition (match-all pattern). -/
def rkeys (s : RedisState) : List String := s.map Prod.fst

/-- `DEL key`. -/
def rdel (s : RedisState) (k : String) : RedisState := adel k s

end RedisClient

namespace RedisStorage

/-- `RedisStorage.keys` with the default pattern `"*"`:
`return self.storage.keys(pattern)`. -/
def keys (s : RedisState) : List String := RedisClient.rkeys s

/-- `RedisStorage.set_val`: `self.storage.set(key, val)`. -/
def set_val (s : RedisState) (key : String) (val : String) : RedisState :=
  RedisClient.rset s key val

/-- `RedisStorage.get_val`: `return self.storage.get(key)` — the client
returns nil (`none`) for an absent key; nothing is raised. -/
def get_val (s : RedisState) (key : String) : Except String (Option String) :=
  RedisClient.rget s key

/-- `RedisStorage.append_val`:
`self.storage.rpush(key, json.dumps(val))`. -/
def append_val (s : RedisState) (key : String) (val : JsonVal) : Except String RedisState :=
  RedisClient.rpush s key (dumps val)

/-- `RedisStorage.get_list`:
`return [json.loads(val) for val in self.storage.lrange(key, 0, -1)]` —
a deserialization failure is a `CodecError`. -/
def get_list (s : RedisState) (key : String) : Except String (List JsonVal) :=
  match RedisClient.lrangeAll s key with
  | .error e => .error e
  | .ok l =>
    match loadsAll l with
    | some es => .ok es
    | none => .error "CodecError"

/-- `RedisStorage.clear`:
`for key in self.storage.keys(): self.storage.delete(key)`. -/
def clear (s : RedisState) : RedisState :=
  (RedisClient.rkeys s).foldl (fun acc k => RedisClient.rdel acc k) s

end RedisStorage

/-! ## Backend factory

`storage(storage_config, index)` (storage.py lines 14–24). The
configuration descriptor is a mapping that may carry a `dict` directive
and/or a `redis` directive; a directive's value is a parameter mapping.
The factory returns the constructed backend (the in-memory backend
ignores its parameters; the networked one receives its — possibly
mutated — parameter mapping) together with the descriptor as the caller
sees it after the call, since the Python code mutates the caller's
descriptor in place. -/

/-- One connection parameter value in a directive's parameter mapping. -/
inductive ConfParam where
  | int (n : Int)
  | str (s : String)
  deriving DecidableEq

/-- A directive's parameter mapping, e.g. `storage_config['redis']`. -/
abbrev ConnCfg := List (String × ConfParam)

/-- The configuration descriptor `storage_config`: which of the two
directives are present, and their parameter mappings. -/
structure StorageConfig where
  dictCfg : Option ConnCfg
  redisCfg : Option ConnCfg
  deriving DecidableEq

/-- The backend instance the factory returns: `InMemoryStorage(...)`
(its config argument is ignored) or `RedisStorage(cfg)` carrying the
connection parameters handed to the client. -/
inductive BackendKind where
  | memBackend
  | redisBackend (cfg : ConnCfg)
  deriving DecidableEq

/-- `storage(storage_config, index)`: `'dict' in storage_config` selects
the in-memory backend; otherwise `'redis' in storage_config` mutates
`storage_config['redis']['db'] = index` and selects the networked
backend; otherwise `ValueError` is raised.  The returned pair is
(backend, descriptor after the call). -/
def storage (storage_config : StorageConfig) (index : Int) :
    Except String (BackendKind × StorageConfig) :=
  if storage_config.dictCfg.isSome then
    .ok (.memBackend, storage_config)
  else
    match storage_config.redisCfg with
    | some p =>
      let p' := aset "db" (.int index) p
      .ok (.redisBackend p', { storage_config with redisCfg := some p' })
    | none => .error "Only in-memory dictionary and Redis are supported."

/-! ## Operation sequences

To state lifetime invariants (claims about every sequence of backend
calls) the mutating operations of each backend are reified; read
operations (`keys`, `get_val`, `get_list`) do not change the state and
need no reification.  A call that raises (`append_val` on a key holding
a scalar / a string-typed redis key) propagates the exception and leaves
the state unchanged. -/

/-- A mutating call on the in-memory backend. -/
inductive MemOp (α : Type) where
  | setOp (k : String) (v : α)
  | appendOp (k : String) (v : α)
  | clearOp
  deriving DecidableEq

/-- Whether the operation is an `append_val` call. -/
def MemOp.isAppendOp {α : Type} : MemOp α → Bool
  | .appendOp _ _ => true
  | _ => false

/-- Whether the operation is a `set_val` or `append_val` on key `k`. -/
def MemOp.usesKey {α : Type} (k : String) : MemOp α → Bool
  | .setOp k' _ => k' == k
  | .appendOp k' _ => k' == k
  | .clearOp => false

/-- Execute one mutating call on the in-memory backend state. -/
def runMemOp {α : Type} (s : InMemState α) : MemOp α → InMemState α
  | .setOp k v => InMemoryStorage.set_val s k v
  | .appendOp k v =>
    match InMemoryStorage.append_val s k v with
    | .ok s' => s'
    | .error _ => s
  | .clearOp => InMemoryStorage.clear s

/-- Execute a sequence of mutating calls on the in-memory backend. -/
def runMemOps {α : Type} (s : InMemState α) (ops : List (MemOp α)) : InMemState α :=
  ops.foldl runMemOp s

/-- A mutating call on the networked backend. -/
inductive RedisOp where
  | setOp (k : String) (v : String)
  | appendOp (k : String) (e : JsonVal)
  | clearOp

/-- Whether the operation is an `append_val` call. -/
def RedisOp.isAppendOp : RedisOp → Bool
  | .appendOp _ _ => true
  | _ => false

/-- Whether the operation is a `set_val` or `append_val` on key `k`. -/
def RedisOp.usesKey (k : String) : RedisOp → Bool
  | .setOp k' _ => k' == k
  | .appendOp k' _ => k' == k
  | .clearOp => false

/-- Execute one mutating call on the networked backend state. -/
def runRedisOp (s : RedisState) : RedisOp → RedisState
  | .setOp k v => RedisStorage.set_val s k v
  | .appendOp k e =>
    match RedisStorage.append_val s k e with
    | .ok s' => s'
    | .error _ => s
  | .clearOp => RedisStorage.clear s

/-- Execute a sequence of mutating calls on the networked backend. -/
def runRedisOps (s : RedisState) (ops : List RedisOp) : RedisState :=
  ops.foldl runRedisOp s

/-- Growth order on stored in-memory values: a list may only be extended
on the right, a scalar must stay identical, and the shape may not
change. -/
def MemVal.growsTo {α : Type} : MemVal α → MemVal α → Prop
  | .vlist l₁, .vlist l₂ => l₁ <+: l₂
  | .scalar x, .scalar y => x = y
  | .vlist _, .scalar _ => False
  | .scalar _, .vlist _ => False

/-- Growth order on the outcomes of `RedisStorage.get_list`: a
successfully read list may only be extended on the right, an error must
stay the same error, and success may not turn into failure or back. -/
def rGrowsTo : Except String (List JsonVal) → Except String (List JsonVal) → Prop
  | .ok l₁, .ok l₂ => l₁ <+: l₂
  | .error e, .error f => e = f
  | .ok _, .error _ => False
  | .error _, .ok _ => False

theorem MemVal.growsTo_refl {α : Type} (a : MemVal α) : MemVal.growsTo a a := by
  cases a with
  | scalar v => rfl
  | vlist l => exact List.prefix_refl l

theorem MemVal.growsTo_trans {α : Type} {a b c : MemVal α}
    (h₁ : MemVal.growsTo a b) (h₂ : MemVal.growsTo b c) : MemVal.growsTo a c := by
  cases a with
  | scalar v =>
    cases b with
    | scalar w => cases h₁; exact h₂
    | vlist l => exact absurd h₁ (by simp [MemVal.growsTo])
  | vlist l₁ =>
    cases b with
    | scalar w => exact absurd h₁ (by simp [MemVal.growsTo])
    | vlist l₂ =>
      cases c with
      | scalar w => exact absurd h₂ (by simp [MemVal.growsTo])
      | vlist l₃ => exact List.IsPrefix.trans h₁ h₂

theorem rGrowsTo_refl (a : Except String (List JsonVal)) : rGrowsTo a a := by
  cases a with
  | error e => rfl
  | ok l => exact List.prefix_refl l

theorem rGrowsTo_trans {a b c : Except String (List JsonVal)}
    (h₁ : rGrowsTo a b) (h₂ : rGrowsTo b c) : rGrowsTo a c := by
  cases a with
  | error e =>
    cases b with
    | error f => cases h₁; exact h₂
    | ok l => exact absurd h₁ (by simp [rGrowsTo])
  | ok l₁ =>
    cases b with
    | error f => exact absurd h₁ (by simp [rGrowsTo])
    | ok l₂ =>
      cases c with
      | error f => exact absurd h₂ (by simp [rGrowsTo])
      | ok l₃ => exact List.IsPrefix.trans h₁ h₂

/-! ## Helper lemmas -/

theorem loadsAll_map_dumps (es : List JsonVal) : loadsAll (es.map dumps) = some es := by
  induction es with
  | nil => simp [loadsAll]
  | cons e es ih => simp [loadsAll, loads_dumps e, ih]

theorem loadsAll_append_ok {l : List (List Codon)} {es : List JsonVal}
    (h : loadsAll l = some es) (x : List Codon) :
    loadsAll (l ++ [x]) =
      match loads x with
      | some e => some (es ++ [e])
      | none => none := by
  induction l generalizing es with
  | nil =>
    simp [loadsAll] at h
    subst h
    cases hx : loads x <;> simp [loadsAll, hx]
  | cons y l ih =>
    simp only [loadsAll] at h
    cases hy : loads y with
    | none => simp [hy] at h
    | some e₀ =>
      cases hl : loadsAll l with
      | none => simp [hy, hl] at h
      | some es₀ =>
        simp [hy, hl] at h
        subst h
        cases hx : loads x <;> simp [loadsAll, hy, ih hl, hx]

theorem loadsAll_append_none {l : List (List Codon)} (h : loadsAll l = none)
    (x : List Codon) : loadsAll (l ++ [x]) = none := by
  induction l with
  | nil => simp [loadsAll] at h
  | cons y l ih =>
    simp only [loadsAll] at h ⊢
    cases hy : loads y with
    | none => simp [hy]
    | some e₀ =>
      cases hl : loadsAll l with
      | none => simp [hy, ih hl]
      | some es₀ => simp [hy, hl] at h

/-- `get_list` reads only the slot of its key. -/
theorem mem_get_list_eq {α : Type} (s : InMemState α) (k : String) :
    InMemoryStorage.get_list s k = (alookup k s).getD (.vlist []) := rfl

/-- One `append_val` on a key currently reading as the list `acc`. -/
theorem mem_append_val_of_get_list {α : Type} {s : InMemState α} {k : String}
    {acc : List α} (h : InMemoryStorage.get_list s k = .vlist acc) (v : α) :
    InMemoryStorage.append_val s k v = .ok (aset k (.vlist (acc ++ [v])) s) := by
  unfold InMemoryStorage.append_val
  cases hl : alookup k s with
  | none =>
    simp [InMemoryStorage.get_list, hl] at h
    subst h
    simp [hl]
  | some w =>
    cases w with
    | scalar x => simp [InMemoryStorage.get_list, hl] at h
    | vlist l =>
      simp [InMemoryStorage.get_list, hl] at h
      subst h
      simp [hl]

/-- Running `append_val(k, e1); …; append_val(k, en)` left to right. -/
def memAppendRun {α : Type} (s : InMemState α) (k : String) (es : List α) :
    Except String (InMemState α) :=
  es.foldlM (fun s' e => InMemoryStorage.append_val s' k e) s

theorem memAppendRun_ok {α : Type} :
    ∀ (es : List α) (s : InMemState α) (k : String) (acc : List α),
    InMemoryStorage.get_list s k = .vlist acc →
    ∃ s', memAppendRun s k es = .ok s' ∧
      InMemoryStorage.get_list s' k = .vlist (acc ++ es) := by
  intro es
  induction es with
  | nil =>
    intro s k acc h
    exact ⟨s, rfl, by simpa using h⟩
  | cons e es ih =>
    intro s k acc h
    have step := mem_append_val_of_get_list h e
    have hnext : InMemoryStorage.get_list (aset k (.vlist (acc ++ [e])) s) k
        = .vlist (acc ++ [e]) := by
      simp [InMemoryStorage.get_list]
    obtain ⟨s', hrun, hlist⟩ := ih (aset k (.vlist (acc ++ [e])) s) k (acc ++ [e]) hnext
    refine ⟨s', ?_, by simpa using hlist⟩
    simp [memAppendRun, List.foldlM, step] at hrun ⊢
    exact hrun

theorem redis_lrangeAll_aset_self (s : RedisState) (k : String) (l : List (List Codon)) :
    RedisClient.lrangeAll (aset k (.rlist l) s) k = .ok l := by
  simp [RedisClient.lrangeAll]

/-- One `RPUSH` on a key currently reading as the raw list `acc`. -/
theorem redis_rpush_of_lrangeAll {s : RedisState} {k : String} {acc : List (List Codon)}
    (h : RedisClient.lrangeAll s k = .ok acc) (d : List Codon) :
    RedisClient.rpush s k d = .ok (aset k (.rlist (acc ++ [d])) s) := by
  unfold RedisClient.rpush
  unfold RedisClient.lrangeAll at h
  cases hl : alookup k s with
  | none =>
    simp [hl] at h
    subst h
    simp [hl]
  | some w =>
    cases w with
    | rstr x => simp [hl] at h
    | rlist l =>
      simp [hl] at h
      subst h
      simp [hl]

/-- Running `append_val(k, e1); …; append_val(k, en)` on the networked
backend, left to right. -/
def redisAppendRun (s : RedisState) (k : String) (es : List JsonVal) :
    Except String RedisState :=
  es.foldlM (fun s' e => RedisStorage.append_val s' k e) s

theorem redisAppendRun_ok :
    ∀ (es : List JsonVal) (s : RedisState) (k : String) (acc : List (List Codon)),
    RedisClient.lrangeAll s k = .ok acc →
    ∃ s', redisAppendRun s k es = .ok s' ∧
      RedisClient.lrangeAll s' k = .ok (acc ++ es.map dumps) := by
  intro es
  induction es with
  | nil =>
    intro s k acc h
    exact ⟨s, rfl, by simpa using h⟩
  | cons e es ih =>
    intro s k acc h
    have step := redis_rpush_of_lrangeAll h (dumps e)
    have hnext := redis_lrangeAll_aset_self s k (acc ++ [dumps e])
    obtain ⟨s', hrun, hlist⟩ := ih (aset k (.rlist (acc ++ [dumps e])) s) k
      (acc ++ [dumps e]) hnext
    refine ⟨s', ?_, by simpa using hlist⟩
    simp [redisAppendRun, List.foldlM, RedisStorage.append_val, step] at hrun ⊢
    exact hrun

/-- The list read by `get_list` for a key whose raw stored list consists
of serialized entries. -/
theorem redis_get_list_of_lrangeAll {s : RedisState} {k : String} {es : List JsonVal}
    (h : RedisClient.lrangeAll s k = .ok (es.map dumps)) :
    RedisStorage.get_list s k = .ok es := by
  simp [RedisStorage.get_list, h, loadsAll_map_dumps]

/-- An `append_val` call can only extend the value `get_list` reads, at
every key of the in-memory backend. -/
theorem runMemOp_growsTo {α : Type} (s : InMemState α) (k : String) {op : MemOp α}
    (h : op.isAppendOp = true) :
    MemVal.growsTo (InMemoryStorage.get_list s k)
      (InMemoryStorage.get_list (runMemOp s op) k) := by
  cases op with
  | setOp k' v => simp [MemOp.isAppendOp] at h
  | clearOp => simp [MemOp.isAppendOp] at h
  | appendOp k' v =>
    by_cases hk : k' = k
    · subst hk
      cases hl : alookup k' s with
      | none =>
        simp [runMemOp, InMemoryStorage.append_val, hl, InMemoryStorage.get_list,
          MemVal.growsTo]
      | some w =>
        cases w with
        | scalar x =>
          simp [runMemOp, InMemoryStorage.append_val, hl]
          exact MemVal.growsTo_refl _
        | vlist l =>
          simp [runMemOp, InMemoryStorage.append_val, hl, InMemoryStorage.get_list,
            MemVal.growsTo]
    · have heq : InMemoryStorage.get_list (runMemOp s (.appendOp k' v)) k
          = InMemoryStorage.get_list s k := by
        simp only [runMemOp]
        cases hl : InMemoryStorage.append_val s k' v with
        | error e => rfl
        | ok s' =>
          unfold InMemoryStorage.append_val at hl
          cases hw : alookup k' s with
          | none =>
            simp [hw] at hl
            simp [← hl, InMemoryStorage.get_list, alookup_aset_ne hk]
          | some w =>
            cases w with
            | scalar x => simp [hw] at hl
            | vlist l =>
              simp [hw] at hl
              simp [← hl, InMemoryStorage.get_list, alookup_aset_ne hk]
      rw [heq]
      exact MemVal.growsTo_refl _

/-- Over any sequence of `append_val` calls, the value `get_list` reads
only grows. -/
theorem runMemOps_growsTo {α : Type} (ops : List (MemOp α)) (s : InMemState α)
    (k : String) (h : ∀ op ∈ ops, op.isAppendOp = true) :
    MemVal.growsTo (InMemoryStorage.get_list s k)
      (InMemoryStorage.get_list (runMemOps s ops) k) := by
  induction ops generalizing s with
  | nil => exact MemVal.growsTo_refl _
  | cons op ops ih =>
    have h₁ := runMemOp_growsTo s k (h op (by simp))
    have h₂ := ih (runMemOp s op) (fun op' hop' => h op' (by simp [hop']))
    exact MemVal.growsTo_trans h₁ h₂

/-- An `append_val` call can only extend the value `get_list` reads, at
every key of the networked backend. -/
theorem runRedisOp_growsTo (s : RedisState) (k : String) {op : RedisOp}
    (h : op.isAppendOp = true) :
    rGrowsTo (RedisStorage.get_list s k) (RedisStorage.get_list (runRedisOp s op) k) := by
  cases op with
  | setOp k' v => simp [RedisOp.isAppendOp] at h
  | clearOp => simp [RedisOp.isAppendOp] at h
  | appendOp k' e =>
    by_cases hk : k' = k
    · subst hk
      cases hl : alookup k' s with
      | none =>
        simp [runRedisOp, RedisStorage.append_val, RedisClient.rpush, hl,
          RedisStorage.get_list, RedisClient.lrangeAll, loadsAll, loads_dumps e, rGrowsTo]
      | some w =>
        cases w with
        | rstr x =>
          simp [runRedisOp, RedisStorage.append_val, RedisClient.rpush, hl]
          exact rGrowsTo_refl _
        | rlist l =>
          simp only [runRedisOp, RedisStorage.append_val, RedisClient.rpush, hl]
          cases hAll : loadsAll l with
          | some es =>
            have hafter := loadsAll_append_ok hAll (dumps e)
            simp [RedisStorage.get_list, RedisClient.lrangeAll, hl, hAll, hafter,
              loads_dumps e, rGrowsTo]
          | none =>
            have hafter := loadsAll_append_none hAll (dumps e)
            simp [RedisStorage.get_list, RedisClient.lrangeAll, hl, hAll, hafter, rGrowsTo]
    · have heq : RedisStorage.get_list (runRedisOp s (.appendOp k' e)) k
          = RedisStorage.get_list s k := by
        simp only [runRedisOp]
        cases hl : RedisStorage.append_val s k' e with
        | error f => rfl
        | ok s' =>
          unfold RedisStorage.append_val RedisClient.rpush at hl
          cases hw : alookup k' s with
          | none =>
            simp [hw] at hl
            simp [← hl, RedisStorage.get_list, RedisClient.lrangeAll, alookup_aset_ne hk]
          | some w =>
            cases w with
            | rstr x => simp [hw] at hl
            | rlist l =>
              simp [hw] at hl
              simp [← hl, RedisStorage.get_list, RedisClient.lrangeAll, alookup_aset_ne hk]
      rw [heq]
      exact rGrowsTo_refl _

/-- Over any sequence of `append_val` calls, the list `get_list` reads
from the networked backend only grows. -/
theorem runRedisOps_growsTo (ops : List RedisOp) (s : RedisState) (k : String)
    (h : ∀ op ∈ ops, op.isAppendOp = true) :
    rGrowsTo (RedisStorage.get_list s k)
      (RedisStorage.get_list (runRedisOps s ops) k) := by
  induction ops generalizing s with
  | nil => exact rGrowsTo_refl _
  | cons op ops ih =>
    have h₁ := runRedisOp_growsTo s k (h op (by simp))
    have h₂ := ih (runRedisOp s op) (fun op' hop' => h op' (by simp [hop']))
    exact rGrowsTo_trans h₁ h₂

/-- Deleting every enumerated key empties an association list. -/
theorem foldl_rdel_eq_nil : ∀ (ks : List String) (s : RedisState),
    (∀ p ∈ s, p.1 ∈ ks) → ks.foldl (fun acc k => RedisClient.rdel acc k) s = [] := by
  intro ks
  induction ks with
  | nil =>
    intro s h
    cases s with
    | nil => rfl
    | cons p rest => exact absurd (h p (by simp)) (by simp)
  | cons k ks ih =>
    intro s h
    simp only [List.foldl_cons]
    apply ih
    intro p hp
    obtain ⟨hps, hpk⟩ := mem_adel.mp hp
    have hmem := h p hps
    simp only [List.mem_cons] at hmem
    cases hmem with
    | inl h1 => exact absurd h1 hpk
    | inr h2 => exact h2

/-- `RedisStorage.clear` (delete every key returned by `KEYS *`) leaves
an empty keyspace. -/
theorem redis_clear_eq_nil (s : RedisState) : RedisStorage.clear s = [] := by
  unfold RedisStorage.clear RedisClient.rkeys
  apply foldl_rdel_eq_nil
  intro p hp
  exact List.mem_map_of_mem Prod.fst hp

/-- A key an operation does not write stays absent (in-memory). -/
theorem runMemOp_absent {α : Type} {s : InMemState α} {k : String} {op : MemOp α}
    (hop : op.usesKey k = false) (h : alookup k s = none) :
    alookup k (runMemOp s op) = none := by
  cases op with
  | setOp k' v =>
    have hne : k' ≠ k := by simpa [MemOp.usesKey] using hop
    simp [runMemOp, InMemoryStorage.set_val, alookup_aset_ne hne, h]
  | appendOp k' v =>
    have hne : k' ≠ k := by simpa [MemOp.usesKey] using hop
    simp only [runMemOp]
    cases hl : InMemoryStorage.append_val s k' v with
    | error e => exact h
    | ok s' =>
      unfold InMemoryStorage.append_val at hl
      cases hw : alookup k' s with
      | none =>
        simp [hw] at hl
        simp [← hl, alookup_aset_ne hne, h]
      | some w =>
        cases w with
        | scalar x => simp [hw] at hl
        | vlist l =>
          simp [hw] at hl
          simp [← hl, alookup_aset_ne hne, h]
  | clearOp => simp [runMemOp, InMemoryStorage.clear, alookup]

/-- A key never written by a sequence of operations stays absent
(in-memory); in particular it stays absent for the whole lifetime of a
freshly created backend. -/
theorem runMemOps_absent {α : Type} (ops : List (MemOp α)) (s : InMemState α)
    (k : String) (hops : ∀ op ∈ ops, op.usesKey k = false)
    (h : alookup k s = none) : alookup k (runMemOps s ops) = none := by
  induction ops generalizing s with
  | nil => exact h
  | cons op ops ih =>
    exact ih (runMemOp s op) (fun op' hop' => hops op' (by simp [hop']))
      (runMemOp_absent (hops op (by simp)) h)

/-- A key an operation does not write stays absent (networked). -/
theorem runRedisOp_absent {s : RedisState} {k : String} {op : RedisOp}
    (hop : op.usesKey k = false) (h : alookup k s = none) :
    alookup k (runRedisOp s op) = none := by
  cases op with
  | setOp k' v =>
    have hne : k' ≠ k := by simpa [RedisOp.usesKey] using hop
    simp [runRedisOp, RedisStorage.set_val, RedisClient.rset, alookup_aset_ne hne, h]
  | appendOp k' e =>
    have hne : k' ≠ k := by simpa [RedisOp.usesKey] using hop
    simp only [runRedisOp]
    cases hl : RedisStorage.append_val s k' e with
    | error f => exact h
    | ok s' =>
      unfold RedisStorage.append_val RedisClient.rpush at hl
      cases hw : alookup k' s with
      | none =>
        simp [hw] at hl
        simp [← hl, alookup_aset_ne hne, h]
      | some w =>
        cases w with
        | rstr x => simp [hw] at hl
        | rlist l =>
          simp [hw] at hl
          simp [← hl, alookup_aset_ne hne, h]
  | clearOp => simp [runRedisOp, redis_clear_eq_nil, alookup]

/-- A key never written by a sequence of operations stays absent
(networked). -/
theorem runRedisOps_absent (ops : List RedisOp) (s : RedisState) (k : String)
    (hops : ∀ op ∈ ops, op.usesKey k = false) (h : alookup k s = none) :
    alookup k (runRedisOps s ops) = none := by
  induction ops generalizing s with
  | nil => exact h
  | cons op ops ih =>
    exact ih (runRedisOp s op) (fun op' hop' => hops op' (by simp [hop']))
      (runRedisOp_absent (hops op (by simp)) h)

/-! ## Claims -/

/-- C1: on a freshly created backend, `append_val(k, e1); …;
append_val(k, en)` succeeds and `get_list(k)` then returns exactly
`[e1, …, en]` in call order (the list is created by the first append),
on the in-memory backend (for entries of any type) and on the networked
backend (for codec-representable entries). -/
theorem C1_append_then_get_list {α : Type} (es : List α) (esJ : List JsonVal)
    (k : String) :
    (∃ s', memAppendRun (InMemoryStorage.init α) k es = .ok s' ∧
      InMemoryStorage.get_list s' k = .vlist es) ∧
    (∃ rs', redisAppendRun ([] : RedisState) k esJ = .ok rs' ∧
      RedisStorage.get_list rs' k = .ok esJ) := by
  constructor
  · obtain ⟨s', h1, h2⟩ := memAppendRun_ok es (InMemoryStorage.init α) k [] rfl
    exact ⟨s', h1, by simpa using h2⟩
  · obtain ⟨rs', h1, h2⟩ := redisAppendRun_ok esJ ([] : RedisState) k [] rfl
    exact ⟨rs', h1, redis_get_list_of_lrangeAll (by simpa using h2)⟩

/-- C2 counterexample: a descriptor carrying both the `dict` and the
`redis` directive does not fail with UnsupportedBackend — the factory
silently returns the in-memory backend and leaves the descriptor
untouched. -/
theorem C2_counterexample :
    storage ⟨some [], some []⟩ 0 = .ok (.memBackend, ⟨some [], some []⟩) := rfl

/-- C2 (amended): the factory returns the in-memory backend whenever the
`dict` directive is present (even alongside `redis`); with `redis` and
no `dict` it returns the networked backend whose parameters carry
`db = index`, and hands back the descriptor mutated the same way; with
neither directive it raises `ValueError` (UnsupportedBackend). -/
theorem C2_factory_selection (cfg : StorageConfig) (index : Int) :
    (cfg.dictCfg.isSome = true → storage cfg index = .ok (.memBackend, cfg)) ∧
    (cfg.dictCfg = none → ∀ p, cfg.redisCfg = some p →
      storage cfg index = .ok (.redisBackend (aset "db" (.int index) p),
        { cfg with redisCfg := some (aset "db" (.int index) p) }) ∧
      alookup "db" (aset "db" (.int index) p) = some (.int index)) ∧
    (cfg.dictCfg = none → cfg.redisCfg = none →
      storage cfg index = .error "Only in-memory dictionary and Redis are supported.") := by
  refine ⟨?_, ?_, ?_⟩
  · intro h
    simp [storage, h]
  · intro h p hp
    refine ⟨?_, alookup_aset_self _ _ _⟩
    simp [storage, h, hp]
  · intro h hp
    simp [storage, h, hp]

/-- C2 witness: the three selection cases at concrete descriptors. -/
theorem C2_factory_selection_witness :
    storage ⟨some [], none⟩ 0 = .ok (.memBackend, ⟨some [], none⟩) ∧
    (storage ⟨none, some []⟩ 3 = .ok (.redisBackend [("db", .int 3)],
      ⟨none, some [("db", .int 3)]⟩) ∧
      alookup "db" [("db", ConfParam.int 3)] = some (.int 3)) ∧
    storage ⟨none, none⟩ 0 = .error "Only in-memory dictionary and Redis are supported." := by
  refine ⟨(C2_factory_selection ⟨some [], none⟩ 0).1 rfl, ?_, ?_⟩
  · have h := (C2_factory_selection ⟨none, some []⟩ 3).2.1 rfl [] rfl
    simpa [aset] using h
  · exact (C2_factory_selection ⟨none, none⟩ 0).2.2 rfl rfl

/-- C3 counterexample: on a freshly created networked backend,
`get_val` of an unset key does not fail with KeyNotFound — it returns
the client's nil value. -/
theorem C3_counterexample :
    RedisStorage.get_val ([] : RedisState) "k" = .ok none := rfl

/-- C3 (amended): for every key never written during the lifetime of a
freshly created backend, `get_val` raises `KeyError` (KeyNotFound) on
the in-memory backend, while the networked backend returns the client's
nil value without failing. -/
theorem C3_get_val_never_written {α : Type} (memOps : List (MemOp α))
    (redisOps : List RedisOp) (k : String)
    (hm : ∀ op ∈ memOps, op.usesKey k = false)
    (hr : ∀ op ∈ redisOps, op.usesKey k = false) :
    InMemoryStorage.get_val (runMemOps (InMemoryStorage.init α) memOps) k
      = .error "KeyError" ∧
    RedisStorage.get_val (runRedisOps ([] : RedisState) redisOps) k = .ok none := by
  have h₁ := runMemOps_absent memOps (InMemoryStorage.init α) k hm rfl
  have h₂ := runRedisOps_absent redisOps ([] : RedisState) k hr rfl
  constructor
  · simp [InMemoryStorage.get_val, h₁]
  · simp [RedisStorage.get_val, RedisClient.rget, h₂]

/-- C3 witness: after writing only key `h2`, reading key `h1`. -/
theorem C3_get_val_never_written_witness :
    InMemoryStorage.get_val (runMemOps (InMemoryStorage.init Nat) [.setOp "h2" 5]) "h1"
      = .error "KeyError" ∧
    RedisStorage.get_val (runRedisOps ([] : RedisState) [.setOp "h2" "x"]) "h1"
      = .ok none :=
  C3_get_val_never_written [.setOp "h2" 5] [.setOp "h2" "x"] "h1"
    (by decide) (by decide)

/-- C4: `set_val(k, v)` followed by `get_val(k)` returns the stored
value `v`, in any state, on both backends (the in-memory backend hands
back the scalar slot, the networked client hands back the stored
string). -/
theorem C4_set_then_get {α : Type} (s : InMemState α) (rs : RedisState) (k : String)
    (v : α) (w : String) :
    InMemoryStorage.get_val (InMemoryStorage.set_val s k v) k = .ok (.scalar v) ∧
    RedisStorage.get_val (RedisStorage.set_val rs k w) k = .ok (some w) := by
  constructor
  · simp [InMemoryStorage.get_val, InMemoryStorage.set_val]
  · simp [RedisStorage.get_val, RedisStorage.set_val, RedisClient.rget, RedisClient.rset]

/-- C5 counterexample: a sequence without `clear()` can still shrink the
list at a key — on the in-memory backend `set_val("k", 2)` overwrites
the list slot, so after `append_val("k", 1); set_val("k", 2)` the
previous `get_list("k")` value `[1]` is not a prefix of (indeed, not
even shaped like) the new one. -/
theorem C5_counterexample :
    ¬ MemVal.growsTo
      (InMemoryStorage.get_list
        (runMemOps (InMemoryStorage.init Nat) [.appendOp "k" 1]) "k")
      (InMemoryStorage.get_list
        (runMemOps (InMemoryStorage.init Nat) [.appendOp "k" 1, .setOp "k" 2]) "k") := by
  intro h
  simp [runMemOps, runMemOp, InMemoryStorage.append_val, InMemoryStorage.set_val,
    InMemoryStorage.get_list, InMemoryStorage.init, alookup, aset,
    MemVal.growsTo] at h

/-- C5 (amended): over every sequence of operations consisting only of
`append_val` calls (no `clear`, and no `set_val`, which overwrites the
list slot), the value `get_list` reads at every key only grows: the
previous value is a prefix of the new one, on both backends, from any
state. -/
theorem C5_append_only_monotonic {α : Type} (memOps : List (MemOp α))
    (redisOps : List RedisOp) (s : InMemState α) (rs : RedisState) (k : String)
    (hm : ∀ op ∈ memOps, op.isAppendOp = true)
    (hr : ∀ op ∈ redisOps, op.isAppendOp = true) :
    MemVal.growsTo (InMemoryStorage.get_list s k)
      (InMemoryStorage.get_list (runMemOps s memOps) k) ∧
    rGrowsTo (RedisStorage.get_list rs k)
      (RedisStorage.get_list (runRedisOps rs redisOps) k) :=
  ⟨runMemOps_growsTo memOps s k hm, runRedisOps_growsTo redisOps rs k hr⟩

/-- C5 witness: one append on each backend, starting from the empty
state. -/
theorem C5_append_only_monotonic_witness :
    MemVal.growsTo
      (InMemoryStorage.get_list ([] : InMemState Nat) "h1")
      (InMemoryStorage.get_list
        (runMemOps ([] : InMemState Nat) [.appendOp "h1" 4]) "h1") ∧
    rGrowsTo (RedisStorage.get_list ([] : RedisState) "h1")
      (RedisStorage.get_list (runRedisOps ([] : RedisState) [.appendOp "h1" .jnull]) "h1") :=
  C5_append_only_monotonic [.appendOp "h1" 4] [.appendOp "h1" .jnull]
    ([] : InMemState Nat) ([] : RedisState) "h1" (by decide) (by simp [RedisOp.isAppendOp])

/-- C6: a key on which neither `append_val` nor `set_val` was ever
performed during the lifetime of a freshly created backend reads as the
empty list via `get_list`, without failing, on both backends. -/
theorem C6_get_list_never_written {α : Type} (memOps : List (MemOp α))
    (redisOps : List RedisOp) (k : String)
    (hm : ∀ op ∈ memOps, op.usesKey k = false)
    (hr : ∀ op ∈ redisOps, op.usesKey k = false) :
    InMemoryStorage.get_list (runMemOps (InMemoryStorage.init α) memOps) k = .vlist [] ∧
    RedisStorage.get_list (runRedisOps ([] : RedisState) redisOps) k = .ok [] := by
  have h₁ := runMemOps_absent memOps (InMemoryStorage.init α) k hm rfl
  have h₂ := runRedisOps_absent redisOps ([] : RedisState) k hr rfl
  constructor
  · simp [InMemoryStorage.get_list, h₁]
  · simp [RedisStorage.get_list, RedisClient.lrangeAll, h₂, loadsAll]

/-- C6 witness: after touching only key `h1` (and a clear), reading key
`h2`. -/
theorem C6_get_list_never_written_witness :
    InMemoryStorage.get_list
      (runMemOps (InMemoryStorage.init Nat) [.appendOp "h1" 1, .clearOp]) "h2"
      = .vlist [] ∧
    RedisStorage.get_list
      (runRedisOps ([] : RedisState) [.appendOp "h1" .jnull, .clearOp]) "h2"
      = .ok [] :=
  C6_get_list_never_written [.appendOp "h1" 1, .clearOp]
    [.appendOp "h1" .jnull, .clearOp] "h2" (by decide)
    (by
      intro op hop
      simp only [List.mem_cons, List.mem_singleton] at hop
      rcases hop with rfl | rfl | h
      · rfl
      · rfl
      · cases h)

/-- C7: from any reachable state, `clear()` leaves a backend with no
keys and the empty list at every key, on both backends. -/
theorem C7_clear_resets {α : Type} (s : InMemState α) (rs : RedisState) :
    InMemoryStorage.keys (InMemoryStorage.clear s) = [] ∧
    (∀ k, InMemoryStorage.get_list (InMemoryStorage.clear s) k = .vlist []) ∧
    RedisStorage.keys (RedisStorage.clear rs) = [] ∧
    (∀ k, RedisStorage.get_list (RedisStorage.clear rs) k = .ok []) := by
  refine ⟨rfl, fun k => rfl, ?_, fun k => ?_⟩
  · simp [RedisStorage.keys, RedisClient.rkeys, redis_clear_eq_nil]
  · simp [redis_clear_eq_nil, RedisStorage.get_list, RedisClient.lrangeAll, alookup,
      loadsAll]

/-- C8: the Value Codec round-trips every representable entry —
deserializing the serialized form gives the entry back — and this
round-trip is exactly what the networked backend's `append_val`
followed by `get_list` applies element-wise: a successful `get_list`
extended by one `append_val` reads the old list plus the new entry. -/
theorem C8_codec_roundtrip :
    (∀ e : JsonVal, loads (dumps e) = some e) ∧
    (∀ (rs : RedisState) (k : String) (e : JsonVal) (es : List JsonVal),
      RedisStorage.get_list rs k = .ok es →
      ∃ rs', RedisStorage.append_val rs k e = .ok rs' ∧
        RedisStorage.get_list rs' k = .ok (es ++ [e])) := by
  constructor
  · exact loads_dumps
  · intro rs k e es h
    cases hl : RedisClient.lrangeAll rs k with
    | error f =>
      have hg : RedisStorage.get_list rs k = .error f := by
        simp [RedisStorage.get_list, hl]
      rw [hg] at h
      cases h
    | ok l =>
      cases hAll : loadsAll l with
      | none =>
        have hg : RedisStorage.get_list rs k = .error "CodecError" := by
          simp [RedisStorage.get_list, hl, hAll]
        rw [hg] at h
        cases h
      | some es' =>
        have hg : RedisStorage.get_list rs k = .ok es' := by
          simp [RedisStorage.get_list, hl, hAll]
        rw [hg] at h
        have hes : es' = es := by cases h; rfl
        subst hes
        have step := redis_rpush_of_lrangeAll hl (dumps e)
        refine ⟨aset k (.rlist (l ++ [dumps e])) rs, step, ?_⟩
        have hnew := redis_lrangeAll_aset_self rs k (l ++ [dumps e])
        have hload := loadsAll_append_ok hAll (dumps e)
        simp [RedisStorage.get_list, hnew, hload, loads_dumps e]

/-- C8 witness: the round-trip at a sample entry, and one append/read
cycle on the empty store. -/
theorem C8_codec_roundtrip_witness :
    loads (dumps (.jarr [.jint 42, .jstr "id"])) = some (.jarr [.jint 42, .jstr "id"]) ∧
    ∃ rs', RedisStorage.append_val ([] : RedisState) "h1" (.jint 7) = .ok rs' ∧
      RedisStorage.get_list rs' "h1" = .ok [.jint 7] := by
  refine ⟨C8_codec_roundtrip.1 _, ?_⟩
  have h := C8_codec_roundtrip.2 ([] : RedisState) "h1" (.jint 7) [] rfl
  simpa using h

/-- C9 counterexample: on a fresh in-memory backend, after a single
`append_val` on key `k` (and no `set_val` anywhere), `keys()` returns
`["k"]` — a key touched only via `append_val` does appear, because one
dict backs both scalars and lists. -/
theorem C9_counterexample :
    InMemoryStorage.keys (runMemOps (InMemoryStorage.init Nat) [.appendOp "k" 1])
      = ["k"] := rfl

/-- C9 (amended): `keys()` on the in-memory backend enumerates every key
of the single backing dict: a key written via `set_val` appears, and so
does a key touched only via `append_val`. -/
theorem C9_keys_after_write {α : Type} (s : InMemState α) (k : String) (v : α) :
    k ∈ InMemoryStorage.keys (InMemoryStorage.set_val s k v) ∧
    (∀ s', InMemoryStorage.append_val s k v = .ok s' →
      k ∈ InMemoryStorage.keys s') := by
  constructor
  · exact mem_keys_aset_self k _ s
  · intro s' h
    unfold InMemoryStorage.append_val at h
    cases hw : alookup k s with
    | none =>
      rw [hw] at h
      cases h
      exact mem_keys_aset_self k _ s
    | some w =>
      cases w with
      | scalar x => rw [hw] at h; cases h
      | vlist l =>
        rw [hw] at h
        cases h
        exact mem_keys_aset_self k _ s

/-- C9 witness: a set key and an append-only key both appear. -/
theorem C9_keys_after_write_witness :
    "h1" ∈ InMemoryStorage.keys
      (InMemoryStorage.set_val (InMemoryStorage.init Nat) "h1" 7) ∧
    "h1" ∈ InMemoryStorage.keys [("h1", MemVal.vlist [7])] := by
  refine ⟨(C9_keys_after_write (InMemoryStorage.init Nat) "h1" 7).1, ?_⟩
  exact (C9_keys_after_write (InMemoryStorage.init Nat) "h1" 7).2
    [("h1", MemVal.vlist [7])] rfl

/-- C10 counterexample: a descriptor carrying the `redis` directive
alongside a `dict` directive is not mutated at all — the factory takes
the `dict` branch, so `db` keeps its stale value `5` instead of the
index `7`, and the descriptor is returned unchanged. -/
theorem C10_counterexample :
    storage ⟨some [], some [("db", .int 5)]⟩ 7 =
      .ok (.memBackend, ⟨some [], some [("db", .int 5)]⟩) := rfl

/-- C10 (amended): when the descriptor carries the `redis` directive and
no `dict` directive, the factory stores the partition index under the
`db` key of the `redis` sub-mapping before constructing the backend,
and the descriptor the caller holds afterwards carries that same
mutated sub-mapping (its value is unchanged only when `db` already
equalled the index). -/
theorem C10_factory_injects_db (cfg : StorageConfig) (index : Int) (p : ConnCfg)
    (hd : cfg.dictCfg = none) (hr : cfg.redisCfg = some p) :
    storage cfg index = .ok (.redisBackend (aset "db" (.int index) p),
      { cfg with redisCfg := some (aset "db" (.int index) p) }) ∧
    alookup "db" (aset "db" (.int index) p) = some (.int index) := by
  refine ⟨?_, alookup_aset_self _ _ _⟩
  simp [storage, hd, hr]

/-- C10 witness: a `redis`-only descriptor with a host parameter gets
`db = 3` appended to its sub-mapping. -/
theorem C10_factory_injects_db_witness :
    storage ⟨none, some [("host", .str "localhost")]⟩ 3 =
      .ok (.redisBackend [("host", .str "localhost"), ("db", .int 3)],
        ⟨none, some [("host", .str "localhost"), ("db", .int 3)]⟩) ∧
    alookup "db" [("host", ConfParam.str "localhost"), ("db", ConfParam.int 3)]
      = some (.int 3) := by
  have h := C10_factory_injects_db ⟨none, some [("host", .str "localhost")]⟩ 3
    [("host", .str "localhost")] rfl rfl
  simpa [aset, alookup] using h

end LSHash
